import Mathlib

/-!
Shallow embedding of the `env` package of DESN30/themekit
(src/env/conf.go), together with a model of the parts of the package
that conf.go depends on but whose source is not available (the `Env`
record, its merge rule `newEnv`, the `Default` env and env-level
validation), modelled from the specification.

Go maps are embedded as association lists with unique keys; the Go
filesystem is a finite map from path to file entry; the yaml/json
codecs (third-party libraries) are modelled as injective encodings
with matching decoders.
-/

set_option autoImplicit false

namespace Themekit

/-- Modelled from the spec: the `Env` record, with the two semantic
fields conf.go manipulates — `Directory` (filesystem path string) and
`Timeout` (a duration, embedded as a natural number).  A field is
"unset" when it holds its type's zero value. -/
structure Env where
  Directory : String
  Timeout : Nat
deriving DecidableEq, Repr

/-- The zero value of the `Env` struct (all fields unset). -/
def Env.zero : Env := { Directory := "", Timeout := 0 }

/-- Modelled from the spec: the static package-level `Default` env,
supplying a default directory and a default timeout. -/
def Default : Env := { Directory := "theme", Timeout := 30 }

/-- Modelled from the spec: one step of the field-by-field merge — a
set field of the override replaces the accumulated value, an unset
field leaves it untouched. -/
def Env.merge (acc ov : Env) : Env :=
  { Directory := if ov.Directory = "" then acc.Directory else ov.Directory
    Timeout := if ov.Timeout = 0 then acc.Timeout else ov.Timeout }

/-- Modelled from the spec: after all overrides are folded in, any
field still at its zero value is filled from `Default`. -/
def Env.applyDefaults (e : Env) : Env :=
  { Directory := if e.Directory = "" then Default.Directory else e.Directory
    Timeout := if e.Timeout = 0 then Default.Timeout else e.Timeout }

/-- Sum type of the sentinel errors of the package, plus the wrapped
error shapes produced by `Load` and `Save`. -/
inductive ConfError where
  | EnvDoesNotExist
  | EnvNotDefined
  | NoEnvironmentsDefined
  | InvalidEnvironmentName
  | ErrNotExist
  | InvalidFormat (format msg : String)
  | ValidationFailed (msg : String)
  | OSError (msg : String)
deriving DecidableEq, Repr

/-- Modelled from the spec: `newEnv(name, initial, overrides...)` —
fails on a blank name, otherwise folds the overrides into the base in
argument order and fills remaining zero fields from `Default`. -/
def newEnv (name : String) (initial : Env) (overrides : List Env) :
    Except ConfError Env :=
  if name = "" then .error .InvalidEnvironmentName
  else .ok (Env.applyDefaults (overrides.foldl Env.merge initial))

/-- Modelled from the spec: env-level validation enforces field sanity
— the directory must be non-empty; the timeout (a natural number) is
always non-negative.  Returns the failure message, if any. -/
def Env.validate (e : Env) : Option String :=
  if e.Directory = "" then some "environment directory cannot be blank" else none

/-- The decoded/encoded shape of a config file: a mapping from
environment name to `*Env` (a `nil` pointer is `none`). -/
abbrev EnvMap := List (String × Option Env)

/-- First-match association-list lookup (the embedding of Go map
indexing; the key lists are kept duplicate-free). -/
def alookup {α : Type} : List (String × α) → String → Option α
  | [], _ => none
  | p :: rest, k => if p.1 = k then some p.2 else alookup rest k

/-- Contents of a file on disk: yaml- or json-encoded env mappings,
uninterpreted raw bytes, or an empty (zero-byte) file. -/
inductive FileData where
  | yamlData (m : EnvMap)
  | jsonData (m : EnvMap)
  | rawData (s : String)
  | emptyData
deriving DecidableEq, Repr

/-- A directory entry: readable contents, or a file that exists
(os.Stat succeeds) but cannot be opened or read (e.g. permissions). -/
inductive FileEntry where
  | readable (d : FileData)
  | unreadable (msg : String)
deriving DecidableEq, Repr

/-- The filesystem: a finite map from path to entry. -/
structure FS where
  files : List (String × FileEntry)
deriving DecidableEq, Repr

/-- Errors of `ioutil.ReadFile`: the not-exist error, or any other
I/O error. -/
inductive ReadError where
  | errNotExist
  | other (msg : String)
deriving DecidableEq, Repr

def FS.lookup (fs : FS) (p : String) : Option FileEntry :=
  alookup fs.files p

/-- `os.Stat(p)` succeeds exactly when the path exists. -/
def FS.statOk (fs : FS) (p : String) : Bool :=
  (fs.lookup p).isSome

/-- `ioutil.ReadFile`. -/
def FS.readFile (fs : FS) (p : String) : Except ReadError FileData :=
  match fs.lookup p with
  | none => .error .errNotExist
  | some (.unreadable m) => .error (.other m)
  | some (.readable d) => .ok d

/-- Replace (or insert) the entry at a path. -/
def FS.set (fs : FS) (p : String) (e : FileEntry) : FS :=
  { files :=
      if (alookup fs.files p).isSome
      then fs.files.map (fun q => if q.1 = p then (p, e) else q)
      else fs.files ++ [(p, e)] }

/-- `yaml.Unmarshal` into a `map[string]*Env`: yaml data decodes to
itself, json data is also valid yaml (yaml is a superset), an empty
file leaves the map empty, raw bytes fail to parse. -/
def yamlUnmarshalEnvs : FileData → Except String EnvMap
  | .yamlData m => .ok m
  | .jsonData m => .ok m
  | .emptyData => .ok []
  | .rawData s => .error ("cannot unmarshal " ++ s)

/-- `json.Unmarshal` into a `map[string]*Env`: only json data
decodes; yaml, raw or empty bytes fail to parse. -/
def jsonUnmarshalEnvs : FileData → Except String EnvMap
  | .jsonData m => .ok m
  | .yamlData _ => .error "invalid character"
  | .emptyData => .error "unexpected end of JSON input"
  | .rawData s => .error ("cannot unmarshal " ++ s)

/-- Go `strings.Join`. -/
def stringsJoin : List String → String → String
  | [], _ => ""
  | [s], _ => s
  | s :: rest, sep => s ++ sep ++ stringsJoin rest sep

/-- Helper for `filepathExt`: walk the reversed character list of the
last path element, collecting characters until the final dot. -/
def extRevAux : List Char → List Char → List Char
  | _, [] => []
  | acc, c :: rest =>
    if c = '/' then []
    else if c = '.' then '.' :: acc
    else extRevAux (c :: acc) rest

/-- Go `filepath.Ext`: the suffix beginning at the final dot in the
final slash-separated element; empty when there is no dot. -/
def filepathExt (p : String) : String :=
  String.mk (extRevAux [] p.data.reverse)

/-- Go `filepath.Base`: the last element of the path (clean paths
without trailing slashes). -/
def filepathBase (p : String) : String :=
  if p = "" then "."
  else
    let r := (p.data.reverse.takeWhile (fun c => c ≠ '/')).reverse
    if r = [] then "/" else String.mk r

/-- Go `filepath.Dir`: everything but the last element of the path
(clean paths without trailing slashes). -/
def filepathDir (p : String) : String :=
  let rev := p.data.reverse.dropWhile (fun c => c ≠ '/')
  match rev with
  | [] => "."
  | _ :: rest => if rest = [] then "/" else String.mk rest.reverse

/-- Go `filepath.Join` of a directory and a file name (clean inputs). -/
def filepathJoin (d n : String) : String :=
  if d = "" then n else if d = "." then n else d ++ "/" ++ n

def supportedExts : List String := ["yml", "yaml", "json"]

/-- The loop of `searchConfigPath` over the supported extensions. -/
def searchLoop (fs : FS) (dir filename name : String) :
    List String → Except ConfError (String × String)
  | [] => .error .ErrNotExist
  | ext :: rest =>
    let foundPath := filepathJoin dir (name ++ "." ++ ext)
    if fs.statOk foundPath && ("." ++ ext == filepathExt filename)
    then .ok (foundPath, ext)
    else searchLoop fs dir filename name rest

/-- `searchConfigPath`: derive dir / base / extensionless name, then
probe each supported extension in order; a candidate matches only if
it exists on disk and the original path's extension equals it. -/
def searchConfigPath (fs : FS) (configPath : String) :
    Except ConfError (String × String) :=
  let dir := filepathDir configPath
  let filename := filepathBase configPath
  let name := filename.dropRight (filepathExt filename).length
  searchLoop fs dir filename name supportedExts

/-- The `Conf` store: the name → `*Env` mapping, the process-env
snapshot, and the target path. -/
structure Conf where
  Envs : EnvMap
  osEnv : Env
  path : String
deriving DecidableEq, Repr

/-- `New`: a blank store.  The process environment snapshot produced
by `env.Parse` is passed in as `procEnv`. -/
def New (procEnv : Env) (configPath : String) : Conf :=
  { Envs := [], osEnv := procEnv, path := configPath }

/-- Store-level `validate`: collect the failure message of every
non-nil entry and aggregate them into one combined message. -/
def Conf.validate (c : Conf) : Option String :=
  let errs := c.Envs.filterMap (fun p => p.2.bind Env.validate)
  if errs = [] then none
  else some ("invalid config " ++ stringsJoin errs ",")

/-- `Load`: resolve the path, read the file (a read error skips the
decode), decode per format, then validate. -/
def Load (fs : FS) (procEnv : Env) (configPath : String) :
    Conf × Option ConfError :=
  let conf := New procEnv configPath
  match searchConfigPath fs configPath with
  | .error e => (conf, some e)
  | .ok (path, ext) =>
    match fs.readFile path with
    | .error _ => (conf, (conf.validate).map ConfError.ValidationFailed)
    | .ok contents =>
      if ext = "yml" || ext = "yaml" then
        match yamlUnmarshalEnvs contents with
        | .error msg => (conf, some (.InvalidFormat "yaml" msg))
        | .ok m =>
          let conf2 := { conf with Envs := m }
          (conf2, (conf2.validate).map ConfError.ValidationFailed)
      else if ext = "json" then
        match jsonUnmarshalEnvs contents with
        | .error msg => (conf, some (.InvalidFormat "json" msg))
        | .ok m =>
          let conf2 := { conf with Envs := m }
          (conf2, (conf2.validate).map ConfError.ValidationFailed)
      else (conf, (conf.validate).map ConfError.ValidationFailed)

/-- `Conf.Get`: absent key, nil entry, or a fresh merge of the stored
env with `[osEnv] ++ overrides`. -/
def Conf.Get (c : Conf) (name : String) (overrides : List Env) :
    Except ConfError Env :=
  match alookup c.Envs name with
  | none => .error .EnvDoesNotExist
  | some none => .error .EnvNotDefined
  | some (some env) => newEnv name env (c.osEnv :: overrides)

/-- `Conf.Set`: reject a blank name, merge, store, then validate the
stored env (the write happens before the validation check). -/
def Conf.Set (c : Conf) (name : String) (initial : Env)
    (overrides : List Env) : Conf × Except ConfError Env :=
  if name = "" then (c, .error .InvalidEnvironmentName)
  else
    match newEnv name initial (c.osEnv :: overrides) with
    | .error e => (c, .error e)
    | .ok env =>
      let newEnvs : EnvMap :=
        if (alookup c.Envs name).isSome then
          c.Envs.map (fun q => if q.1 = name then (name, some env) else q)
        else c.Envs ++ [(name, some env)]
      let c2 := { c with Envs := newEnvs }
      match env.validate with
      | some msg => (c2, .error (.ValidationFailed msg))
      | none => (c2, .ok env)

/-- The per-entry default-suppression of `Conf.save`: a field equal
to `Default`'s corresponding field is reset to its zero value. -/
def cleanEnv (e : Env) : Env :=
  { Directory := if e.Directory = Default.Directory then "" else e.Directory
    Timeout := if e.Timeout = Default.Timeout then 0 else e.Timeout }

/-- `Conf.save` (the writer-level half of Save): delete nil entries,
suppress default-equal fields in place, fail when nothing is left,
otherwise yaml-encode the mutated mapping.  Returns the store whose
map was mutated in place together with the write result. -/
def Conf.save (c : Conf) : Conf × Except ConfError FileData :=
  let cleaned := c.Envs.filterMap (fun p => p.2.map (fun e => (p.1, cleanEnv e)))
  let newEnvs : EnvMap := cleaned.map (fun p => (p.1, some p.2))
  let c2 := { c with Envs := newEnvs }
  if cleaned = [] then (c2, .error .NoEnvironmentsDefined)
  else (c2, .ok (.yamlData newEnvs))

/-- `Conf.file`: open the target path with `O_WRONLY|O_CREATE|O_TRUNC`
— an existing file is truncated to empty, a missing file is created
empty; opening fails only on an unopenable entry. -/
def Conf.file (c : Conf) (fs : FS) : Except ReadError FS :=
  match fs.lookup c.path with
  | some (.unreadable m) => .error (.other m)
  | _ => .ok (fs.set c.path (.readable .emptyData))

/-- `Conf.Save`: acquire (and truncate) the file, then run `save`,
writing its marshalled bytes on success. -/
def Conf.Save (c : Conf) (fs : FS) : Conf × FS × Option ConfError :=
  match c.file fs with
  | .error (.other m) => (c, fs, some (.OSError m))
  | .error .errNotExist => (c, fs, some (.OSError "not exist"))
  | .ok fs1 =>
    match c.save with
    | (c2, .error e) => (c2, fs1, some e)
    | (c2, .ok data) => (c2, fs1.set c.path (.readable data), none)

/-- The last element of a list that differs from the zero value `z`
(scanning from the end), if any — the reference point for the merge
precedence property. -/
def lastSet {α : Type} [DecidableEq α] (z : α) : List α → Option α
  | [] => none
  | x :: rest =>
    match lastSet z rest with
    | some v => some v
    | none => if x = z then none else some x

/-- `m` occurs as a contiguous substring of `s`. -/
def substringOf (m s : String) : Prop :=
  ∃ a b : List Char, s.data = a ++ m.data ++ b

/-- A store holding only a nil entry, targeting `app.yml`. -/
def confNilOnly : Conf :=
  { Envs := [("dev", none)], osEnv := Env.zero, path := "app.yml" }

/-- A filesystem where `app.yml` already holds data. -/
def fsPriorData : FS :=
  { files := [("app.yml", .readable (.rawData "old"))] }

/-- A filesystem where `app.yml` exists but cannot be read. -/
def fsUnreadable : FS :=
  { files := [("app.yml", .unreadable "permission denied")] }

/-- A filesystem holding both `app.yaml` and `app.json`. -/
def fsBothExts : FS :=
  { files := [("app.yaml", .readable .emptyData),
              ("app.json", .readable .emptyData)] }

/-- A one-environment store whose target path has the json extension. -/
def confJsonPath : Conf :=
  { Envs := [("dev", some { Directory := "d", Timeout := 5 })],
    osEnv := Env.zero, path := "app.json" }

/-- A one-environment store whose target path has the yml extension. -/
def confYmlPath : Conf :=
  { Envs := [("dev", some { Directory := "d", Timeout := 5 })],
    osEnv := Env.zero, path := "app.yml" }

/-- A store with one non-nil and one nil entry. -/
def confMixed : Conf :=
  { Envs := [("a", some { Directory := "d", Timeout := 30 }), ("b", none)],
    osEnv := Env.zero, path := "app.yml" }

/-- A store with two entries that fail env-level validation. -/
def confTwoInvalid : Conf :=
  { Envs := [("a", some Env.zero), ("b", some { Directory := "", Timeout := 3 })],
    osEnv := Env.zero, path := "app.yml" }

/-- A store holding exactly the `Default` env under one key. -/
def confDefaultOnly : Conf :=
  { Envs := [("dev", some Default)], osEnv := Env.zero, path := "app.yml" }

/-! ## Helper lemmas -/

theorem lastSet_ne {α : Type} [DecidableEq α] (z : α) (l : List α) (v : α)
    (h : lastSet z l = some v) : v ≠ z := by
  induction l with
  | nil => simp [lastSet] at h
  | cons x rest ih =>
    simp only [lastSet] at h
    cases hr : lastSet z rest with
    | some w => rw [hr] at h; exact ih (hr.trans (by injection h with h2; rw [h2]))
    | none =>
      rw [hr] at h
      by_cases hx : x = z
      · simp [hx] at h
      · simp [hx] at h; rw [← h]; exact hx

theorem foldl_merge_Timeout (b : Env) (os : List Env) :
    (os.foldl Env.merge b).Timeout =
      (lastSet 0 (os.map Env.Timeout)).getD b.Timeout := by
  induction os generalizing b with
  | nil => simp [lastSet]
  | cons o rest ih =>
    simp only [List.foldl_cons, List.map_cons, lastSet]
    rw [ih]
    cases hr : lastSet 0 (rest.map Env.Timeout) with
    | some v => simp
    | none =>
      by_cases ho : o.Timeout = 0 <;> simp [Env.merge, ho]

theorem foldl_merge_Directory (b : Env) (os : List Env) :
    (os.foldl Env.merge b).Directory =
      (lastSet "" (os.map Env.Directory)).getD b.Directory := by
  induction os generalizing b with
  | nil => simp [lastSet]
  | cons o rest ih =>
    simp only [List.foldl_cons, List.map_cons, lastSet]
    rw [ih]
    cases hr : lastSet "" (rest.map Env.Directory) with
    | some v => simp
    | none =>
      by_cases ho : o.Directory = "" <;> simp [Env.merge, ho]

/-! ## C3, C5, C8 -/

/-- C3: the env produced by the merge has each field equal to the
last override that set it; failing that, the base's field when set;
failing that, the `Default` env's field. -/
theorem merge_precedence (name : String) (hname : name ≠ "")
    (b : Env) (os : List Env) :
    ∃ m, newEnv name b os = .ok m ∧
      m.Timeout = (match lastSet 0 (os.map Env.Timeout) with
        | some v => v
        | none => if b.Timeout = 0 then Default.Timeout else b.Timeout) ∧
      m.Directory = (match lastSet "" (os.map Env.Directory) with
        | some v => v
        | none => if b.Directory = "" then Default.Directory
                  else b.Directory) := by
  refine ⟨Env.applyDefaults (os.foldl Env.merge b), ?_, ?_, ?_⟩
  · simp [newEnv, hname]
  · show (if (os.foldl Env.merge b).Timeout = 0 then Default.Timeout
          else (os.foldl Env.merge b).Timeout) = _
    rw [foldl_merge_Timeout]
    cases hr : lastSet 0 (os.map Env.Timeout) with
    | some v => simp [lastSet_ne 0 _ v hr]
    | none => simp
  · show (if (os.foldl Env.merge b).Directory = "" then Default.Directory
          else (os.foldl Env.merge b).Directory) = _
    rw [foldl_merge_Directory]
    cases hr : lastSet "" (os.map Env.Directory) with
    | some v => simp [lastSet_ne "" _ v hr]
    | none => simp

/-- Witness for C3 at a concrete input. -/
theorem merge_precedence_witness :
    ∃ m, newEnv "dev" Env.zero [] = .ok m ∧
      m.Timeout = (match lastSet 0 (List.map Env.Timeout []) with
        | some v => v
        | none => if Env.zero.Timeout = 0 then Default.Timeout
                  else Env.zero.Timeout) ∧
      m.Directory = (match lastSet "" (List.map Env.Directory []) with
        | some v => v
        | none => if Env.zero.Directory = "" then Default.Directory
                  else Env.zero.Directory) :=
  merge_precedence "dev" (by decide) Env.zero []

/-- C5: an override field left at the zero value never clears the
accumulated value, and a set field can never be reset to zero; in
particular Timeout 30 merged with override Timeout 0 stays 30. -/
theorem zero_reset_limitation (e ov : Env) :
    (ov.Timeout = 0 → (Env.merge e ov).Timeout = e.Timeout) ∧
    (ov.Directory = "" → (Env.merge e ov).Directory = e.Directory) ∧
    (e.Timeout ≠ 0 → (Env.merge e ov).Timeout ≠ 0) ∧
    (e.Directory ≠ "" → (Env.merge e ov).Directory ≠ "") ∧
    (Env.merge { Directory := "", Timeout := 30 }
       { Directory := "", Timeout := 0 }).Timeout = 30 := by
  refine ⟨fun h => by simp [Env.merge, h], fun h => by simp [Env.merge, h],
    fun h => ?_, fun h => ?_, by decide⟩
  · by_cases hov : ov.Timeout = 0 <;> simp [Env.merge, hov, h]
  · by_cases hov : ov.Directory = "" <;> simp [Env.merge, hov, h]

/-- Witness for C5 at a concrete input. -/
theorem zero_reset_limitation_witness :
    (Env.merge { Directory := "x", Timeout := 30 }
       { Directory := "", Timeout := 0 }).Timeout =
      (30 : Nat) :=
  (zero_reset_limitation { Directory := "x", Timeout := 30 }
    { Directory := "", Timeout := 0 }).1 rfl

/-- C8: Get distinguishes an absent key (`EnvDoesNotExist`) from a
nil entry (`EnvNotDefined`); on a non-nil entry it re-runs the merge
with the chain `[osEnv] ++ overrides` on top of the stored env and
returns the fresh result (the store itself is left unchanged — `Get`
takes the store by value and returns only the merged env). -/
theorem get_distinction (c : Conf) (name : String) (ovs : List Env) :
    (alookup c.Envs name = none →
      c.Get name ovs = .error .EnvDoesNotExist) ∧
    (alookup c.Envs name = some none →
      c.Get name ovs = .error .EnvNotDefined) ∧
    (∀ e, alookup c.Envs name = some (some e) →
      c.Get name ovs = newEnv name e (c.osEnv :: ovs)) := by
  refine ⟨fun h => ?_, fun h => ?_, fun e h => ?_⟩ <;>
    simp [Conf.Get, h]

/-- Witness for C8 at concrete inputs. -/
theorem get_distinction_witness :
    Conf.Get confMixed "b" [] = .error .EnvNotDefined :=
  (get_distinction confMixed "b" []).2.1 (by decide)

/-! ## Association-list lemmas for the save cleanup -/

theorem alookup_mem {α : Type} (xs : List (String × α)) (k : String) (v : α)
    (h : alookup xs k = some v) : (k, v) ∈ xs := by
  induction xs with
  | nil => simp [alookup] at h
  | cons p rest ih =>
    simp only [alookup] at h
    by_cases hp : p.1 = k
    · simp [hp] at h
      have hpv : p = (k, v) := by
        obtain ⟨a, b⟩ := p
        simp only at hp h
        rw [hp, h]
      exact List.mem_cons.mpr (Or.inl hpv.symm)
    · simp [hp] at h
      exact List.mem_cons_of_mem _ (ih h)

theorem alookup_filterMapClean_not_mem (xs : EnvMap) (k : String)
    (h : ∀ p ∈ xs, p.1 ≠ k) :
    alookup ((xs.filterMap
        (fun p => p.2.map (fun e => (p.1, cleanEnv e)))).map
      (fun p => (p.1, some p.2))) k = none := by
  induction xs with
  | nil => simp [alookup]
  | cons p rest ih =>
    have hp := h p (List.mem_cons_self p rest)
    have hrest : ∀ q ∈ rest, q.1 ≠ k :=
      fun q hq => h q (List.mem_cons_of_mem p hq)
    cases he : p.2 with
    | none => simpa [he] using ih hrest
    | some e =>
      simp only [List.filterMap_cons, he, Option.map_some, List.map_cons,
        alookup, hp, if_neg hp]
      exact ih hrest

theorem alookup_savedEnvs (xs : EnvMap)
    (hnd : (xs.map Prod.fst).Nodup) (k : String) :
    alookup ((xs.filterMap
        (fun p => p.2.map (fun e => (p.1, cleanEnv e)))).map
      (fun p => (p.1, some p.2))) k =
      (alookup xs k).bind (fun e? => e?.map (fun e => some (cleanEnv e))) := by
  induction xs with
  | nil => simp [alookup]
  | cons p rest ih =>
    simp only [List.map_cons, List.nodup_cons] at hnd
    obtain ⟨hnm, hnd2⟩ := hnd
    have hrest : ∀ q ∈ rest, q.1 ≠ p.1 := by
      intro q hq hqe
      exact hnm (List.mem_map.mpr ⟨q, hq, hqe⟩)
    cases he : p.2 with
    | none =>
      by_cases hp : p.1 = k
      · subst hp
        simp only [List.filterMap_cons, he, alookup, if_pos rfl]
        simpa using alookup_filterMapClean_not_mem rest p.1 hrest
      · simp only [List.filterMap_cons, he, alookup, if_neg hp]
        exact ih hnd2
    | some e =>
      by_cases hp : p.1 = k
      · subst hp
        simp [List.filterMap_cons, he, alookup]
      · simp only [List.filterMap_cons, he, Option.map_some, List.map_cons,
          alookup, if_neg hp]
        exact ih hnd2

theorem filterMapClean_ne_nil (xs : EnvMap) (k : String) (e : Env)
    (h : (k, some e) ∈ xs) :
    xs.filterMap (fun p => p.2.map (fun q => (p.1, cleanEnv q))) ≠ [] := by
  intro hc
  have := (List.filterMap_eq_nil_iff.mp hc) (k, some e) h
  simp at this

/-! ## C6: the pre-write cleanup of save -/

/-- C6: `save`'s pre-write pass deletes nil entries, resets every
field equal to `Default`'s corresponding field to zero in the store's
map, and what is encoded is exactly the mutated mapping. -/
theorem save_cleanup (c : Conf) (hnd : (c.Envs.map Prod.fst).Nodup) :
    (∀ name, alookup (c.save).1.Envs name =
      (alookup c.Envs name).bind (fun e? => e?.map (fun e => some
        { Directory := if e.Directory = Default.Directory then ""
                       else e.Directory
          Timeout := if e.Timeout = Default.Timeout then 0
                     else e.Timeout }))) ∧
    (∀ d, (c.save).2 = .ok d →
      d = FileData.yamlData (c.save).1.Envs) := by
  have hEnvs : (c.save).1.Envs =
      (c.Envs.filterMap
        (fun p => p.2.map (fun e => (p.1, cleanEnv e)))).map
      (fun p => (p.1, some p.2)) := by
    simp only [Conf.save]
    split <;> rfl
  constructor
  · intro name
    rw [hEnvs]
    exact (alookup_savedEnvs c.Envs hnd name).trans rfl
  · intro d hd
    rw [hEnvs]
    simp only [Conf.save] at hd
    split at hd
    · exact absurd hd (by simp)
    · injection hd with h2
      rw [← h2]

/-- Witness for C6 at a concrete store. -/
theorem save_cleanup_witness :
    alookup (Conf.save confMixed).1.Envs "a" =
      (alookup confMixed.Envs "a").bind (fun e? => e?.map (fun e => some
        { Directory := if e.Directory = Default.Directory then ""
                       else e.Directory
          Timeout := if e.Timeout = Default.Timeout then 0
                     else e.Timeout })) :=
  (save_cleanup confMixed (by decide)).1 "a"

/-! ## C1: Save on an all-nil store -/

/-- C1 counterexample: on a store whose only entry is nil, `Save`
does fail with `NoEnvironmentsDefined` and writes no data — but the
target file is not left untouched: the `O_TRUNC` open has already
replaced its prior contents with an empty file. -/
theorem save_all_nil_truncates_counterexample :
    (confNilOnly.Save fsPriorData).2.2 =
      some ConfError.NoEnvironmentsDefined ∧
    fsPriorData.lookup "app.yml" = some (.readable (.rawData "old")) ∧
    (confNilOnly.Save fsPriorData).2.1.lookup "app.yml" =
      some (.readable .emptyData) := by
  refine ⟨rfl, rfl, rfl⟩

/-- C1 amended: Save on a store whose entries are all nil fails with
`NoEnvironmentsDefined` and writes no data, but because the file is
opened with truncation before the emptiness check, the target path
ends up holding an empty file (prior contents are lost). -/
theorem save_all_nil (c : Conf) (fs : FS)
    (hnil : ∀ p ∈ c.Envs, p.2 = none)
    (hopen : ∀ m, fs.lookup c.path ≠ some (.unreadable m)) :
    c.Save fs = ({ c with Envs := [] },
      fs.set c.path (.readable .emptyData),
      some .NoEnvironmentsDefined) := by
  have hfile : c.file fs = .ok (fs.set c.path (.readable .emptyData)) := by
    unfold Conf.file
    split
    · next m hl => exact absurd hl (hopen m)
    · rfl
  have hclean : c.Envs.filterMap
      (fun p => p.2.map (fun e => (p.1, cleanEnv e))) = [] := by
    refine List.filterMap_eq_nil_iff.mpr (fun p hp => ?_)
    rw [hnil p hp]
    rfl
  simp [Conf.Save, hfile, Conf.save, hclean]

/-- Witness for C1 amended at concrete inputs. -/
theorem save_all_nil_witness :
    Conf.Save confNilOnly fsPriorData =
      ({ confNilOnly with Envs := [] },
        FS.set fsPriorData confNilOnly.path (.readable .emptyData),
        some .NoEnvironmentsDefined) :=
  save_all_nil confNilOnly fsPriorData (by decide)
    (fun m h => by simp [fsPriorData, FS.lookup, alookup] at h)

/-! ## C2: read failures during Load -/

/-- C2 counterexample: the file exists (so path resolution succeeds)
but reading it fails with an error other than not-exist; `Load` does
not propagate it — it returns no error at all. -/
theorem load_swallows_read_error_counterexample :
    fsUnreadable.readFile "app.yml" =
      .error (.other "permission denied") ∧
    (Load fsUnreadable Env.zero "app.yml").2 = none := by
  refine ⟨rfl, rfl⟩

/-- C2 amended: once path resolution succeeds, any read failure —
not-exist or any other error — is silently ignored: Load proceeds
with the empty Envs mapping and the read step contributes no error
(the result is the blank store and no error, since the empty store
validates). -/
theorem load_read_error_swallowed (fs : FS) (procEnv : Env)
    (configPath pat ext : String) (err : ReadError)
    (hres : searchConfigPath fs configPath = .ok (pat, ext))
    (hread : fs.readFile pat = .error err) :
    Load fs procEnv configPath = (New procEnv configPath, none) := by
  simp [Load, hres, hread, New, Conf.validate]

/-- Witness for C2 amended at concrete inputs. -/
theorem load_read_error_swallowed_witness :
    Load fsUnreadable Env.zero "app.yml" =
      (New Env.zero "app.yml", none) :=
  load_read_error_swallowed fsUnreadable Env.zero "app.yml" "app.yml"
    "yml" (.other "permission denied") rfl rfl

/-! ## C7: extension strictness of path resolution -/

theorem searchLoop_ok (fs : FS) (dir filename name : String)
    (l : List String) (p e : String)
    (h : searchLoop fs dir filename name l = .ok (p, e)) :
    e ∈ l ∧ fs.statOk p = true ∧ "." ++ e = filepathExt filename ∧
      p = filepathJoin dir (name ++ "." ++ e) := by
  induction l with
  | nil => simp [searchLoop] at h
  | cons ext rest ih =>
    simp only [searchLoop] at h
    by_cases hc : (fs.statOk (filepathJoin dir (name ++ "." ++ ext)) &&
        ("." ++ ext == filepathExt filename)) = true
    · rw [if_pos hc] at h
      injection h with h2
      rw [Prod.mk.injEq] at h2
      obtain ⟨hp, he⟩ := h2
      subst hp
      subst he
      rw [Bool.and_eq_true, beq_iff_eq] at hc
      exact ⟨List.mem_cons_self _ _, hc.1, hc.2, rfl⟩
    · rw [if_neg hc] at h
      obtain ⟨h1, h2, h3, h4⟩ := ih h
      exact ⟨List.mem_cons_of_mem _ h1, h2, h3, h4⟩

theorem searchLoop_error (fs : FS) (dir filename name : String)
    (l : List String) (err : ConfError)
    (h : searchLoop fs dir filename name l = .error err) :
    err = .ErrNotExist := by
  induction l with
  | nil =>
    simp only [searchLoop] at h
    injection h with h2
    exact h2.symm
  | cons ext rest ih =>
    simp only [searchLoop] at h
    by_cases hc : (fs.statOk (filepathJoin dir (name ++ "." ++ ext)) &&
        ("." ++ ext == filepathExt filename)) = true
    · rw [if_pos hc] at h
      exact absurd h (by simp)
    · rw [if_neg hc] at h
      exact ih h

/-- C7: resolution succeeds only with a supported extension whose
candidate file exists on disk and which equals the original path's
extension exactly; with both `app.yaml` and `app.json` on disk,
resolving `app.json` yields the json file and format; every
resolution failure is the not-exist error. -/
theorem extension_strictness :
    (∀ (fs : FS) (path p e : String),
      searchConfigPath fs path = .ok (p, e) →
        e ∈ supportedExts ∧ fs.statOk p = true ∧
        "." ++ e = filepathExt (filepathBase path) ∧
        p = filepathJoin (filepathDir path)
          ((filepathBase path).dropRight
            (filepathExt (filepathBase path)).length ++ "." ++ e)) ∧
    searchConfigPath fsBothExts "app.json" = .ok ("app.json", "json") ∧
    (∀ (fs : FS) (path : String) (err : ConfError),
      searchConfigPath fs path = .error err → err = .ErrNotExist) := by
  refine ⟨fun fs path p e h => ?_, rfl, fun fs path err h => ?_⟩
  · exact searchLoop_ok fs _ _ _ supportedExts p e h
  · exact searchLoop_error fs _ _ _ supportedExts err h

/-- Witness for C7 at concrete inputs. -/
theorem extension_strictness_witness :
    "json" ∈ supportedExts ∧ fsBothExts.statOk "app.json" = true ∧
    "." ++ "json" = filepathExt (filepathBase "app.json") ∧
    "app.json" = filepathJoin (filepathDir "app.json")
      ((filepathBase "app.json").dropRight
        (filepathExt (filepathBase "app.json")).length ++ "." ++ "json") :=
  extension_strictness.1 fsBothExts "app.json" "app.json" "json"
    extension_strictness.2.1

/-! ## C9: validation aggregation -/

theorem substringOf_mem_join (errs : List String) (m : String)
    (hm : m ∈ errs) : substringOf m (stringsJoin errs ",") := by
  induction errs with
  | nil => simp at hm
  | cons s rest ih =>
    cases rest with
    | nil =>
      simp at hm
      subst hm
      exact ⟨[], [], by simp [stringsJoin]⟩
    | cons t rest2 =>
      rcases List.mem_cons.mp hm with hs | hr
      · subst hs
        exact ⟨[], ("," ++ stringsJoin (t :: rest2) ",").data, by
          simp [stringsJoin, String.data_append, List.append_assoc]⟩
      · obtain ⟨a, b, hab⟩ := ih hr
        refine ⟨(s ++ ",").data ++ a, b, ?_⟩
        simp [stringsJoin, String.data_append, hab, List.append_assoc]

theorem substringOf_append_left (pre m s : String)
    (h : substringOf m s) : substringOf m (pre ++ s) := by
  obtain ⟨a, b, hab⟩ := h
  exact ⟨pre.data ++ a, b, by simp [String.data_append, hab]⟩

theorem filterMap_validate_filter (xs : EnvMap) :
    (xs.filter (fun p => p.2.isSome)).filterMap
        (fun p => p.2.bind Env.validate) =
      xs.filterMap (fun p => p.2.bind Env.validate) := by
  induction xs with
  | nil => rfl
  | cons p rest ih =>
    cases he : p.2 with
    | none => simp [List.filter_cons, List.filterMap_cons, he, ih]
    | some e => simp [List.filter_cons, List.filterMap_cons, he, ih]

/-- C9: store-level validation skips nil entries, and returns at most
one error whose message contains the underlying failure message of
every failing non-nil entry (aggregated, joined by a comma). -/
theorem validation_aggregation (c : Conf) :
    (Conf.validate { c with Envs := c.Envs.filter (fun p => p.2.isSome) } =
      c.validate) ∧
    (∀ n e m, (n, some e) ∈ c.Envs → Env.validate e = some m →
      ∃ s, c.validate = some s ∧ substringOf m s) := by
  constructor
  · have h := filterMap_validate_filter c.Envs
    simp only [Conf.validate]
    rw [h]
  · intro n e m hmem hval
    have hin : m ∈ c.Envs.filterMap (fun p => p.2.bind Env.validate) :=
      List.mem_filterMap.mpr ⟨(n, some e), hmem, by simp [hval]⟩
    have hne : c.Envs.filterMap (fun p => p.2.bind Env.validate) ≠ [] :=
      List.ne_nil_of_mem hin
    refine ⟨"invalid config " ++
      stringsJoin (c.Envs.filterMap (fun p => p.2.bind Env.validate)) ",",
      by simp [Conf.validate, hne], ?_⟩
    exact substringOf_append_left "invalid config " m _
      (substringOf_mem_join _ m hin)

/-- Witness for C9 at a concrete store with two invalid envs. -/
theorem validation_aggregation_witness :
    ∃ s, confTwoInvalid.validate = some s ∧
      substringOf "environment directory cannot be blank" s :=
  (validation_aggregation confTwoInvalid).2 "a" Env.zero
    "environment directory cannot be blank" (by decide) rfl

/-! ## C10: non-nil entries survive the save cleanup -/

/-- C10: the cleanup removes only nil entries — a store holding a
non-nil env equal to `Default` does not fail with
`NoEnvironmentsDefined`: the key survives and is persisted with every
field reset to zero; more generally every non-nil entry survives with
its default-equal fields zeroed. -/
theorem save_keeps_default_env (c : Conf) (name : String)
    (hnd : (c.Envs.map Prod.fst).Nodup)
    (h : alookup c.Envs name = some (some Default)) :
    (c.save).2 = .ok (FileData.yamlData (c.save).1.Envs) ∧
    alookup (c.save).1.Envs name = some (some Env.zero) ∧
    (∀ n e2, alookup c.Envs n = some (some e2) →
      alookup (c.save).1.Envs n = some (some (cleanEnv e2))) := by
  have hmem : (name, some Default) ∈ c.Envs :=
    alookup_mem c.Envs name (some Default) h
  have hclne : c.Envs.filterMap
      (fun p => p.2.map (fun e => (p.1, cleanEnv e))) ≠ [] :=
    filterMapClean_ne_nil c.Envs name Default hmem
  have hEnvs : (c.save).1.Envs =
      (c.Envs.filterMap
        (fun p => p.2.map (fun e => (p.1, cleanEnv e)))).map
      (fun p => (p.1, some p.2)) := by
    simp only [Conf.save]
    split <;> rfl
  refine ⟨?_, ?_, ?_⟩
  · rw [hEnvs]
    simp only [Conf.save]
    rw [if_neg hclne]
  · rw [hEnvs, alookup_savedEnvs c.Envs hnd name, h]
    rfl
  · intro n e2 h2
    rw [hEnvs, alookup_savedEnvs c.Envs hnd n, h2]
    rfl

/-- Witness for C10 at a concrete store. -/
theorem save_keeps_default_env_witness :
    alookup (Conf.save confDefaultOnly).1.Envs "dev" =
      some (some Env.zero) :=
  (save_keeps_default_env confDefaultOnly "dev" (by decide) (by decide)).2.1

/-! ## C4: save / load round trip -/

theorem alookup_map_replace (xs : List (String × FileEntry))
    (p : String) (e : FileEntry) (h : (alookup xs p).isSome = true) :
    alookup (xs.map (fun q => if q.1 = p then (p, e) else q)) p = some e := by
  induction xs with
  | nil => simp [alookup] at h
  | cons q rest ih =>
    by_cases hq : q.1 = p
    · simp [alookup, hq]
    · have h2 : (alookup rest p).isSome = true := by
        simpa [alookup, hq] using h
      simp only [List.map_cons, if_neg hq, alookup, hq, if_false]
      exact ih h2

theorem alookup_append_single (xs : List (String × FileEntry))
    (p : String) (e : FileEntry) (h : alookup xs p = none) :
    alookup (xs ++ [(p, e)]) p = some e := by
  induction xs with
  | nil => simp [alookup]
  | cons q rest ih =>
    by_cases hq : q.1 = p
    · simp [alookup, hq] at h
    · simp only [alookup, hq, if_neg hq] at h
      simp only [List.cons_append, alookup, hq, if_neg hq]
      exact ih h

theorem lookup_set (fs : FS) (p : String) (e : FileEntry) :
    (fs.set p e).lookup p = some e := by
  simp only [FS.set, FS.lookup]
  by_cases h : (alookup fs.files p).isSome = true
  · rw [if_pos h]
    exact alookup_map_replace fs.files p e h
  · rw [if_neg h]
    refine alookup_append_single fs.files p e ?_
    cases hl : alookup fs.files p with
    | none => rfl
    | some v => rw [hl] at h; simp at h

theorem file_ok (c : Conf) (fs : FS)
    (hopen : ∀ m, fs.lookup c.path ≠ some (.unreadable m)) :
    c.file fs = .ok (fs.set c.path (.readable .emptyData)) := by
  unfold Conf.file
  split
  · next m hl => exact absurd hl (hopen m)
  · rfl

theorem newEnv_cleanEnv (name : String) (e o : Env) :
    newEnv name (cleanEnv e) [o] = newEnv name e [o] := by
  simp only [newEnv]
  by_cases hn : name = ""
  · simp [hn]
  · simp only [hn, if_false]
    congr 1
    have hD : ¬(Default.Directory = "") := by decide
    have hT : ¬(Default.Timeout = 0) := by decide
    simp only [List.foldl_cons, List.foldl_nil, cleanEnv, Env.merge,
      Env.applyDefaults]
    rw [Env.mk.injEq]
    constructor <;> split_ifs <;> simp_all

theorem searchLoop_cons_true (fs : FS) (dir filename name ext : String)
    (rest : List String)
    (h : (fs.statOk (filepathJoin dir (name ++ "." ++ ext)) &&
      ("." ++ ext == filepathExt filename)) = true) :
    searchLoop fs dir filename name (ext :: rest) =
      .ok (filepathJoin dir (name ++ "." ++ ext), ext) := by
  unfold searchLoop
  rw [if_pos h]

theorem searchLoop_cons_false (fs : FS) (dir filename name ext : String)
    (rest : List String)
    (h : (fs.statOk (filepathJoin dir (name ++ "." ++ ext)) &&
      ("." ++ ext == filepathExt filename)) = false) :
    searchLoop fs dir filename name (ext :: rest) =
      searchLoop fs dir filename name rest := by
  unfold searchLoop
  rw [if_neg (by rw [h]; simp)]
  cases rest <;> rfl

theorem searchConfigPath_found (fs : FS) (cpath ext0 : String)
    (hext0 : ext0 = "yml" ∨ ext0 = "yaml")
    (hExt : filepathExt (filepathBase cpath) = "." ++ ext0)
    (hjoin : filepathJoin (filepathDir cpath)
        ((filepathBase cpath).dropRight
          (filepathExt (filepathBase cpath)).length ++
          filepathExt (filepathBase cpath)) = cpath)
    (hstat : fs.statOk cpath = true) :
    searchConfigPath fs cpath = .ok (cpath, ext0) := by
  have hshow : searchConfigPath fs cpath =
      searchLoop fs (filepathDir cpath) (filepathBase cpath)
        ((filepathBase cpath).dropRight
          (filepathExt (filepathBase cpath)).length)
        ["yml", "yaml", "json"] := rfl
  rw [hshow]
  rcases hext0 with h0 | h0 <;> subst h0
  · have hfound : filepathJoin (filepathDir cpath)
        ((filepathBase cpath).dropRight
          (filepathExt (filepathBase cpath)).length ++ "." ++ "yml") =
        cpath := by
      rw [String.append_assoc, ← hExt]
      exact hjoin
    have hc1 : (fs.statOk (filepathJoin (filepathDir cpath)
        ((filepathBase cpath).dropRight
          (filepathExt (filepathBase cpath)).length ++ "." ++ "yml")) &&
        ("." ++ "yml" == filepathExt (filepathBase cpath))) = true := by
      rw [hfound, hstat, hExt]
      simp
    rw [searchLoop_cons_true fs _ _ _ "yml" _ hc1, hfound]
  · have hfound : filepathJoin (filepathDir cpath)
        ((filepathBase cpath).dropRight
          (filepathExt (filepathBase cpath)).length ++ "." ++ "yaml") =
        cpath := by
      rw [String.append_assoc, ← hExt]
      exact hjoin
    have hb : ("." ++ "yml" == "." ++ "yaml") = false := by decide
    have hc1 : (fs.statOk (filepathJoin (filepathDir cpath)
        ((filepathBase cpath).dropRight
          (filepathExt (filepathBase cpath)).length ++ "." ++ "yml")) &&
        ("." ++ "yml" == filepathExt (filepathBase cpath))) = false := by
      rw [hExt, hb, Bool.and_false]
    have hc2 : (fs.statOk (filepathJoin (filepathDir cpath)
        ((filepathBase cpath).dropRight
          (filepathExt (filepathBase cpath)).length ++ "." ++ "yaml")) &&
        ("." ++ "yaml" == filepathExt (filepathBase cpath))) = true := by
      rw [hfound, hstat, hExt]
      simp
    rw [searchLoop_cons_false fs _ _ _ "yml" _ hc1,
      searchLoop_cons_true fs _ _ _ "yaml" _ hc2, hfound]

theorem load_yaml_ok (fs : FS) (procEnv : Env) (cpath ext0 : String)
    (m : EnvMap) (hyml : ext0 = "yml" ∨ ext0 = "yaml")
    (hres : searchConfigPath fs cpath = .ok (cpath, ext0))
    (hread : fs.readFile cpath = .ok (.yamlData m)) :
    (Load fs procEnv cpath).1 =
      { Envs := m, osEnv := procEnv, path := cpath } := by
  rcases hyml with h0 | h0 <;> subst h0 <;>
    simp [Load, hres, hread, New, yamlUnmarshalEnvs]

/-- C4 counterexample: for a store whose path carries the json
extension, Save writes yaml marshalled bytes, which Load's json
decoder rejects — the reloaded store is empty and Get no longer
reproduces the pre-save merged value. -/
theorem roundtrip_json_counterexample :
    confJsonPath.Get "dev" [] =
      .ok { Directory := "d", Timeout := 5 } ∧
    (Load (confJsonPath.Save { files := [] }).2.1 Env.zero
        confJsonPath.path).2 =
      some (.InvalidFormat "json" "invalid character") ∧
    (Load (confJsonPath.Save { files := [] }).2.1 Env.zero
        confJsonPath.path).1.Get "dev" [] =
      .error .EnvDoesNotExist := by
  refine ⟨rfl, rfl, rfl⟩

/-- C4 amended: for a store whose path carries a yaml extension
(`.yml` or `.yaml`, with the path recomposing from its dir and base),
Save then Load on that same path yields a store whose Get with no
overrides returns, for every originally non-nil environment name,
exactly the same result as Get returned before the Save — fields
equal to `Default` are persisted as zero and re-defaulted to the same
effective value on reload.  For a path with any other extension
(e.g. `.json`) the round trip fails, since Save always writes yaml. -/
theorem save_load_roundtrip (c : Conf) (fs : FS)
    (hnd : (c.Envs.map Prod.fst).Nodup)
    (hext : filepathExt (filepathBase c.path) = ".yml" ∨
            filepathExt (filepathBase c.path) = ".yaml")
    (hjoin : filepathJoin (filepathDir c.path)
        ((filepathBase c.path).dropRight
          (filepathExt (filepathBase c.path)).length ++
          filepathExt (filepathBase c.path)) = c.path)
    (hopen : ∀ m, fs.lookup c.path ≠ some (FileEntry.unreadable m)) :
    ∀ name e, alookup c.Envs name = some (some e) →
      (Load (c.Save fs).2.1 c.osEnv c.path).1.Get name [] =
        c.Get name [] := by
  intro name e hlook
  have hmem : (name, some e) ∈ c.Envs := alookup_mem _ _ _ hlook
  have hclne : c.Envs.filterMap
      (fun p => p.2.map (fun q => (p.1, cleanEnv q))) ≠ [] :=
    filterMapClean_ne_nil c.Envs name e hmem
  have hsave : c.save =
      ({ c with
          Envs :=
            (c.Envs.filterMap
                (fun p => p.2.map (fun q => (p.1, cleanEnv q)))).map
              (fun p => (p.1, some p.2)) },
        .ok (.yamlData ((c.Envs.filterMap
          (fun p => p.2.map (fun q => (p.1, cleanEnv q)))).map
          (fun p => (p.1, some p.2))))) := by
    simp only [Conf.save]
    rw [if_neg hclne]
  have hSave21 : (c.Save fs).2.1 =
      (fs.set c.path (.readable .emptyData)).set c.path
        (.readable (.yamlData ((c.Envs.filterMap
          (fun p => p.2.map (fun q => (p.1, cleanEnv q)))).map
          (fun p => (p.1, some p.2))))) := by
    simp only [Conf.Save, file_ok c fs hopen, hsave]
  have hlk2 : ((fs.set c.path (.readable .emptyData)).set c.path
      (.readable (.yamlData ((c.Envs.filterMap
        (fun p => p.2.map (fun q => (p.1, cleanEnv q)))).map
        (fun p => (p.1, some p.2)))))).lookup c.path =
      some (.readable (.yamlData ((c.Envs.filterMap
        (fun p => p.2.map (fun q => (p.1, cleanEnv q)))).map
        (fun p => (p.1, some p.2))))) := lookup_set _ _ _
  have hstat : ((fs.set c.path (.readable .emptyData)).set c.path
      (.readable (.yamlData ((c.Envs.filterMap
        (fun p => p.2.map (fun q => (p.1, cleanEnv q)))).map
        (fun p => (p.1, some p.2)))))).statOk c.path = true := by
    rw [FS.statOk, hlk2]
    rfl
  have hread : ((fs.set c.path (.readable .emptyData)).set c.path
      (.readable (.yamlData ((c.Envs.filterMap
        (fun p => p.2.map (fun q => (p.1, cleanEnv q)))).map
        (fun p => (p.1, some p.2)))))).readFile c.path =
      .ok (.yamlData ((c.Envs.filterMap
        (fun p => p.2.map (fun q => (p.1, cleanEnv q)))).map
        (fun p => (p.1, some p.2)))) := by
    simp only [FS.readFile, hlk2]
  obtain ⟨ext0, hyml, hExt⟩ : ∃ ext0,
      (ext0 = "yml" ∨ ext0 = "yaml") ∧
      filepathExt (filepathBase c.path) = "." ++ ext0 := by
    rcases hext with h | h
    · exact ⟨"yml", Or.inl rfl, by rw [h]; decide⟩
    · exact ⟨"yaml", Or.inr rfl, by rw [h]; decide⟩
  have hres := searchConfigPath_found
    ((fs.set c.path (.readable .emptyData)).set c.path
      (.readable (.yamlData ((c.Envs.filterMap
        (fun p => p.2.map (fun q => (p.1, cleanEnv q)))).map
        (fun p => (p.1, some p.2))))))
    c.path ext0 hyml hExt hjoin hstat
  have hload1 := load_yaml_ok
    ((fs.set c.path (.readable .emptyData)).set c.path
      (.readable (.yamlData ((c.Envs.filterMap
        (fun p => p.2.map (fun q => (p.1, cleanEnv q)))).map
        (fun p => (p.1, some p.2))))))
    c.osEnv c.path ext0
    ((c.Envs.filterMap
        (fun p => p.2.map (fun q => (p.1, cleanEnv q)))).map
        (fun p => (p.1, some p.2)))
    hyml hres hread
  have hlksaved : alookup ((c.Envs.filterMap
      (fun p => p.2.map (fun q => (p.1, cleanEnv q)))).map
      (fun p => (p.1, some p.2))) name = some (some (cleanEnv e)) := by
    rw [alookup_savedEnvs c.Envs hnd name, hlook]
    rfl
  rw [hSave21, hload1]
  show Conf.Get _ name [] = _
  simp only [Conf.Get, hlksaved, hlook]
  exact newEnv_cleanEnv name e c.osEnv

/-- Witness for C4 amended at a concrete store and empty filesystem. -/
theorem save_load_roundtrip_witness :
    (Load (confYmlPath.Save { files := [] }).2.1 confYmlPath.osEnv
        confYmlPath.path).1.Get "dev" [] =
      confYmlPath.Get "dev" [] :=
  save_load_roundtrip confYmlPath { files := [] } (by decide)
    (Or.inl (by decide)) (by decide)
    (fun m h => by simp [confYmlPath, FS.lookup, alookup] at h)
    "dev" { Directory := "d", Timeout := 5 } (by decide)

end Themekit
